import Mathlib

/-!
# Verification of the App Engine wiki codelab

Shallow embedding of `src/wiki_step1/main.py` (single-revision variant) and
`src/trunk/wiki_step2/main.py` (versioned variant), together with theorems
settling the specification claims about rendering, saving and viewing.

Strings are modelled as Lean `String`/`List Char`; the App Engine datastore
is modelled as explicit lists of entity records with numeric keys assigned
by an increasing counter; a `put` that may fail is modelled by a boolean
failure flag, and a Python exception escaping a handler is modelled by an
`error` outcome carrying the datastore state mutated so far.
-/

namespace Wiki

/-! ## The wiki-word renderer

`_WIKI_WORD = re.compile('\\b([A-Z][a-z]+[A-Z][A-Za-z]+)\\b')` and
`_WIKI_WORD.subn(r'<a href="/view/\1">\1</a>', body)` from
`src/trunk/wiki_step2/main.py` lines 56 and 133-134.

Python 2 `re` without `re.UNICODE` treats `[A-Za-z0-9_]` as word characters
for `\b`; `Char.isAlpha`/`Char.isDigit` are the same ASCII classes. -/

def isWordChar (c : Char) : Bool :=
  c.isAlpha || c.isDigit || c == '_'

/-- Attempt to match the regex `[A-Z][a-z]+[A-Z][A-Za-z]+\b` at the head of
the character list (the leading `\b` is checked by the caller).  Returns the
matched characters and the remainder.  The regex engine's greedy matching
never needs to backtrack here: shortening the greedy `[a-z]+` run makes the
following `[A-Z]` face a lowercase letter, and shortening the greedy
`[A-Za-z]+` run makes the trailing `\b` face a letter, so the maximal-run
match is the only possible one. -/
def matchWikiWordAt : List Char → Option (List Char × List Char)
  | [] => none
  | c :: rest =>
    if c.isUpper then
      let low := rest.takeWhile (fun x => x.isLower)
      let r1 := rest.dropWhile (fun x => x.isLower)
      if low.isEmpty then none
      else
        match r1 with
        | [] => none
        | d :: r2 =>
          if d.isUpper then
            let tl := r2.takeWhile (fun x => x.isAlpha)
            let r3 := r2.dropWhile (fun x => x.isAlpha)
            if tl.isEmpty then none
            else
              match r3 with
              | [] => some (c :: low ++ d :: tl, [])
              | e :: _ => if isWordChar e then none else some (c :: low ++ d :: tl, r3)
          else none
    else none

/-- The replacement template `r'<a href="/view/\1">\1</a>'` applied to a
matched group. -/
def wikiLink (w : List Char) : List Char :=
  "<a href=\"/view/".data ++ w ++ "\">".data ++ w ++ "</a>".data

/-- One left-to-right scan of `subn`: at each position whose predecessor is
not a word character (the leading `\b`; `prevW` records whether the previous
character was a word character, `false` at the start of the string), try the
pattern; on a match emit the replacement and resume after the match (whose
last character is a letter, hence a word character).  `fuel` bounds the
recursion by the input length so the function is structurally recursive. -/
def subWikiRunF : Nat → Bool → List Char → List Char
  | 0, _, l => l
  | _ + 1, _, [] => []
  | fuel + 1, prevW, c :: rest =>
    if prevW then
      c :: subWikiRunF fuel (isWordChar c) rest
    else
      match matchWikiWordAt (c :: rest) with
      | some (m, r) => wikiLink m ++ subWikiRunF fuel true r
      | none => c :: subWikiRunF fuel (isWordChar c) rest

/-- `_WIKI_WORD.subn(r'<a href="/view/\1">\1</a>', body)[0]`: replace every
non-overlapping wiki-word match in `body` by its hyperlink. -/
def wikiSub (s : String) : String :=
  String.mk (subWikiRunF s.data.length false s.data)

/-- A full token matched by `[A-Z][a-z]+[A-Z][A-Za-z]+`: an uppercase
letter, a nonempty lowercase run, an uppercase letter, then one or more
further letters. -/
def isWikiWord (w : List Char) : Bool :=
  match w with
  | [] => false
  | c :: rest =>
    c.isUpper &&
      (!(rest.takeWhile (fun x => x.isLower)).isEmpty &&
        match rest.dropWhile (fun x => x.isLower) with
        | [] => false
        | d :: r2 => d.isUpper && (!r2.isEmpty && r2.all (fun x => x.isAlpha)))

/-- The wiki-word token shape exactly as the claim words it: "a token
beginning with an uppercase letter, followed by one or more lowercase
letters, then another uppercase letter, then more letters/digits".  This is
the spec-side pattern, to be compared with `isWikiWord`, the code-side one:
it admits digits in the token tail, which the source regex does not. -/
def specIsWikiWordToken (w : List Char) : Bool :=
  match w with
  | [] => false
  | c :: rest =>
    c.isUpper &&
      (!(rest.takeWhile (fun x => x.isLower)).isEmpty &&
        match rest.dropWhile (fun x => x.isLower) with
        | [] => false
        | d :: r2 => d.isUpper && (!r2.isEmpty && r2.all (fun x => x.isAlpha || x.isDigit)))

/-- Modelled from the spec: the bundled markdown library
(`from markdown import markdown`, used as `markdown.markdown(wiki_body)`) is
not among the sources; the spec treats it as an external markup-to-HTML
converter with "blank-line-separated paragraphs" and "empty input renders to
empty output (no exception)".  Only those two behaviours are modelled:
empty input maps to empty output, otherwise each blank-line-separated
paragraph is wrapped in a paragraph element. -/
def markdown_markdown (s : String) : String :=
  if s = "" then ""
  else String.intercalate "\n" ((s.splitOn "\n\n").map (fun p => "<p>" ++ p ++ "</p>"))

/-- The rendering pipeline of `ViewHandler.get` (wiki_step2 lines 133-136):
wiki-word substitution followed by the markdown conversion. -/
def render (s : String) : String :=
  markdown_markdown (wikiSub s)

/-- One hexadecimal digit, uppercase, as produced by `urllib.quote`. -/
def hexDigit (n : Nat) : Char :=
  if n < 10 then Char.ofNat (48 + n) else Char.ofNat (55 + n)

/-- Python 2 `urllib.quote` with the default `safe='/'`: letters, digits,
`_`, `.`, `-` and `/` pass through, every other byte is percent-encoded. -/
def urllibQuote (s : String) : String :=
  String.mk (s.data.flatMap (fun c =>
    if c.isAlphanum || c == '_' || c == '.' || c == '-' || c == '/' then [c]
    else ['%', hexDigit (c.toNat / 16 % 16), hexDigit (c.toNat % 16)]))

/-! ## The versioned datastore (`wiki_step2`)

Entity model for `WikiUser`, `WikiContent` and `WikiRevision` (the module
`wiki_model` itself is not among the sources; its fields are those read and
written by `main.py` and named by the spec's data model).  Keys are numeric,
assigned from an increasing per-store counter when an entity is first `put`;
revision keys are never queried by the code and are omitted.  A user's
identity is modelled as a `String` (serving as both `email()` and
`nickname()` of the platform user object); `Option.none` models the Python
`None` that `users.get_current_user()` returns for an unauthenticated
caller. -/

structure WikiUser where
  key : Nat
  wiki_user : Option String
  deriving DecidableEq

structure WikiContent where
  key : Nat
  title : String
  deriving DecidableEq

structure WikiRevision where
  version_number : Nat
  revision_body : String
  author : Nat
  wiki_page : Nat
  created : Nat
  deriving DecidableEq

structure Datastore where
  users : List WikiUser
  pages : List WikiContent
  revisions : List WikiRevision
  nextId : Nat
  deriving DecidableEq

/-- Accumulator step selecting the revision with the maximal version number
(keeping the earliest-stored one on ties, as the datastore orders equal sort
keys by entity key). -/
def pickLatest (best : Option WikiRevision) (r : WikiRevision) : Option WikiRevision :=
  match best with
  | none => some r
  | some m => if m.version_number < r.version_number then some r else some m

/-- `WikiRevision.gql('WHERE wiki_page = :1 ORDER BY version_number DESC', entry).get()`:
the first result of the descending-order query, i.e. the revision of the
given page with the maximal version number (earliest-stored on ties). -/
def latestRevision (revisions : List WikiRevision) (pageKey : Nat) : Option WikiRevision :=
  (revisions.filter (fun r => r.wiki_page == pageKey)).foldl pickLatest none

/-- Lines 192-198 of `wiki_step2/main.py`: look the caller's profile up by
identity (`WikiUser.gql('WHERE wiki_user = :1', current_user).get()`) and
create it when absent.  Returns the profile's key and the updated store, or
`none` when the profile `put` fails (modelling a raised store exception). -/
def resolveWikiUser (s : Datastore) (current_user : Option String) (failUserPut : Bool) :
    Option (Nat × Datastore) :=
  match s.users.find? (fun w => w.wiki_user == current_user) with
  | some w => some (w.key, s)
  | none =>
    if failUserPut then none
    else some (s.nextId,
      { s with users := s.users ++ [{ key := s.nextId, wiki_user := current_user }],
               nextId := s.nextId + 1 })

/-- Outcome of a request handler: `ok` carries whether the login redirect
was issued (the handler does not return after `self.redirect`, so execution
continues either way) and the final store; `error` models a Python exception
escaping the handler, carrying the store as mutated up to that point. -/
inductive SaveOutcome where
  | ok (loginRedirect : Bool) (store : Datastore)
  | error (store : Datastore)
  deriving DecidableEq

def SaveOutcome.store : SaveOutcome → Datastore
  | .ok _ s => s
  | .error s => s

/-- `SaveHandler.post` of `wiki_step2/main.py` (lines 185-223).  Note that
the unauthenticated branch issues a redirect but does not return: the method
falls through and performs the save with `current_user = None`.  In the
existing-page branch, a page with no revisions makes
`latest_version.version_number` dereference `None`, modelled as `error`.
The three failure flags inject a store-write failure at the corresponding
`put()` call. -/
def saveStep2 (s : Datastore) (current_user : Option String) (page_title body : String)
    (now : Nat) (failUserPut failEntryPut failRevPut : Bool) : SaveOutcome :=
  let loginRedirect := current_user.isNone
  match resolveWikiUser s current_user failUserPut with
  | none => .error s
  | some (author, s1) =>
    match s1.pages.find? (fun p => p.title == page_title) with
    | some entry =>
      match latestRevision s1.revisions entry.key with
      | none => .error s1
      | some latest =>
        if failRevPut then .error s1
        else .ok loginRedirect
          { s1 with revisions := s1.revisions ++
              [{ version_number := latest.version_number + 1, revision_body := body,
                 author := author, wiki_page := entry.key, created := now }] }
    | none =>
      if failEntryPut then .error s1
      else
        let entry : WikiContent := { key := s1.nextId, title := page_title }
        let s2 : Datastore := { s1 with pages := s1.pages ++ [entry], nextId := s1.nextId + 1 }
        if failRevPut then .error s2
        else .ok loginRedirect
          { s2 with revisions := s2.revisions ++
              [{ version_number := 1, revision_body := body, author := author,
                 wiki_page := entry.key, created := now }] }

/-- The template values computed by `ViewHandler.get` of `wiki_step2/main.py`
(lines 112-152).  Display values are strings; absent page yields all-blank
fields. -/
structure ViewValues where
  page_title : String
  body : String
  author : String
  author_email : String
  version : String
  version_date : String
  deriving DecidableEq

/-- `ViewHandler.get` (wiki_step2).  A page whose descending-order revision
query returns no result makes `current_version.revision_body` dereference
`None` (and similarly a missing or identity-less author profile breaks
`current_version.author.wiki_user.email()`); these raised exceptions are
modelled as `none`. -/
def viewStep2 (s : Datastore) (page_title : String) : Option ViewValues :=
  match s.pages.find? (fun p => p.title == page_title) with
  | some entry =>
    match latestRevision s.revisions entry.key with
    | none => none
    | some cv =>
      match s.users.find? (fun w => w.key == cv.author) with
      | none => none
      | some wu =>
        match wu.wiki_user with
        | none => none
        | some ident =>
          some { page_title := page_title,
                 body := markdown_markdown (wikiSub cv.revision_body),
                 author := ident,
                 author_email := urllibQuote ident,
                 version := toString cv.version_number,
                 version_date := toString cv.created }
  | none =>
    some { page_title := page_title, body := "", author := "", author_email := "",
           version := "", version_date := "" }

/-- One edit submitted to the save handler: the authenticated identity, the
posted body, and the creation timestamp for the new revision. -/
structure EditPost where
  user : String
  body : String
  now : Nat
  deriving DecidableEq

/-- A sequence of authenticated saves of the same title, stopping at the
first store error. -/
def saveSeq (t : String) (s : Datastore) : List EditPost → SaveOutcome
  | [] => .ok false s
  | e :: es =>
    match saveStep2 s (some e.user) t e.body e.now false false false with
    | .ok _ s1 => saveSeq t s1 es
    | .error s1 => .error s1

/-! ## The single-revision datastore (`wiki_step1`) -/

structure WikiPage where
  key : Nat
  title : String
  body : String
  author : Option String
  deriving DecidableEq

structure Datastore1 where
  pages : List WikiPage
  nextId : Nat
  deriving DecidableEq

/-- `SaveHandler.post` of `wiki_step1/main.py` (lines 145-165): the first
page with the given title is overwritten in place (its `body` and `author`
fields are reassigned and the same entity is `put` back under its key);
otherwise a fresh page entity is created.  As in the versioned variant, the
unauthenticated branch redirects without returning, so the save proceeds
with `current_user = None`. -/
def saveStep1 (s : Datastore1) (current_user : Option String) (page_title body : String) :
    Bool × Datastore1 :=
  let loginRedirect := current_user.isNone
  match s.pages.find? (fun p => p.title == page_title) with
  | some entry =>
    (loginRedirect,
      { s with pages := s.pages.map (fun p =>
          if p.key == entry.key then { p with body := body, author := current_user } else p) })
  | none =>
    (loginRedirect,
      { pages := s.pages ++ [{ key := s.nextId, title := page_title, body := body,
                               author := current_user }],
        nextId := s.nextId + 1 })

/-- The empty datastore. -/
def emptyStore : Datastore := { users := [], pages := [], revisions := [], nextId := 0 }

/-- A store holding one Page record with zero revisions. -/
def orphanStore : Datastore :=
  { users := [], pages := [{ key := 0, title := "Orphan" }], revisions := [], nextId := 1 }

/-- An input shape exhibiting a list of whole-word wiki-word matches: each
pair is a wiki-word token followed by a gap of non-word characters; a gap may
be empty only at the very end of the input (two adjacent tokens would fuse
into one longer match). -/
def goodPairs : List (List Char × List Char) → Bool
  | [] => true
  | (t, g) :: rest =>
    isWikiWord t && g.all (fun c => !isWordChar c) &&
      (rest.isEmpty || !g.isEmpty) && goodPairs rest

/-- The concatenated input built from token/gap pairs. -/
def glueIn : List (List Char × List Char) → List Char
  | [] => []
  | (t, g) :: rest => t ++ g ++ glueIn rest

/-- The expected output: every token replaced by its hyperlink, gaps kept. -/
def glueOut : List (List Char × List Char) → List Char
  | [] => []
  | (t, g) :: rest => wikiLink t ++ g ++ glueOut rest

/-- A single-capitalized word: an uppercase letter followed by lowercase
letters only. -/
def isCapitalized : List Char → Bool
  | [] => false
  | c :: r => c.isUpper && r.all (fun x => x.isLower)

/-! ## Character-class facts -/

theorem isUpper_isLower {c : Char} (h : c.isUpper = true) : c.isLower = false := by
  simp only [Char.isUpper, Char.isLower, decide_eq_true_eq, Bool.and_eq_true] at *
  obtain ⟨h1, h2⟩ := h
  have hn : ¬ (c.val ≥ 97) := fun hc => absurd (UInt32.le_trans hc h2) (by decide)
  simp [hn]

theorem isLower_isUpper {c : Char} (h : c.isLower = true) : c.isUpper = false := by
  simp only [Char.isUpper, Char.isLower, decide_eq_true_eq, Bool.and_eq_true] at *
  obtain ⟨h1, h2⟩ := h
  have hn : ¬ (c.val ≤ 90) := fun hc => absurd (UInt32.le_trans h1 hc) (by decide)
  simp [hn]

theorem isUpper_isWordChar {c : Char} (h : c.isUpper = true) : isWordChar c = true := by
  simp [isWordChar, Char.isAlpha, h]

theorem isLower_isWordChar {c : Char} (h : c.isLower = true) : isWordChar c = true := by
  simp [isWordChar, Char.isAlpha, h]

theorem not_wordChar {c : Char} (h : isWordChar c = false) :
    c.isUpper = false ∧ c.isLower = false ∧ c.isAlpha = false := by
  have ha : c.isAlpha = false := by
    cases hx : c.isAlpha
    · rfl
    · simp [isWordChar, hx] at h
  have hu : c.isUpper = false := by
    cases hx : c.isUpper
    · rfl
    · exact absurd ha (by simp [Char.isAlpha, hx])
  have hl : c.isLower = false := by
    cases hx : c.isLower
    · rfl
    · exact absurd ha (by simp [Char.isAlpha, hx])
  exact ⟨hu, hl, ha⟩

/-! ## takeWhile / dropWhile helpers -/

theorem takeWhile_append_all {α : Type} {p : α → Bool} :
    ∀ {xs ys : List α}, (∀ x ∈ xs, p x = true) →
      (xs ++ ys).takeWhile p = xs ++ ys.takeWhile p := by
  intro xs
  induction xs with
  | nil => simp
  | cons a l ih =>
    intro ys h
    have ha : p a = true := h a (by simp)
    simp [List.takeWhile_cons, ha, ih (fun x hx => h x (by simp [hx]))]

theorem dropWhile_append_all {α : Type} {p : α → Bool} :
    ∀ {xs ys : List α}, (∀ x ∈ xs, p x = true) →
      (xs ++ ys).dropWhile p = ys.dropWhile p := by
  intro xs
  induction xs with
  | nil => simp
  | cons a l ih =>
    intro ys h
    have ha : p a = true := h a (by simp)
    simp [List.dropWhile_cons, ha, ih (fun x hx => h x (by simp [hx]))]

/-! ## Decomposition of a successful match -/

theorem matchWikiWordAt_append {l m r : List Char}
    (h : matchWikiWordAt l = some (m, r)) : l = m ++ r ∧ m ≠ [] := by
  cases l with
  | nil => simp [matchWikiWordAt] at h
  | cons c rest =>
    cases hu : c.isUpper with
    | false => simp [matchWikiWordAt, hu] at h
    | true =>
      cases hle : (rest.takeWhile (fun x => x.isLower)).isEmpty with
      | true => simp [matchWikiWordAt, hu, hle] at h
      | false =>
        cases hr1 : rest.dropWhile (fun x => x.isLower) with
        | nil => simp [matchWikiWordAt, hu, hle, hr1] at h
        | cons d r2 =>
          have hrest : rest.takeWhile (fun x => x.isLower) ++ (d :: r2) = rest := by
            rw [← hr1]; exact List.takeWhile_append_dropWhile _ _
          cases hd : d.isUpper with
          | false => simp [matchWikiWordAt, hu, hle, hr1, hd] at h
          | true =>
            cases htl : (r2.takeWhile (fun x => x.isAlpha)).isEmpty with
            | true => simp [matchWikiWordAt, hu, hle, hr1, hd, htl] at h
            | false =>
              cases hr3 : r2.dropWhile (fun x => x.isAlpha) with
              | nil =>
                have hr2 : r2.takeWhile (fun x => x.isAlpha) ++ ([] : List Char) = r2 := by
                  rw [← hr3]; exact List.takeWhile_append_dropWhile _ _
                simp only [matchWikiWordAt, hu, hle, hr1, hd, htl, hr3] at h
                simp only [if_true, Bool.false_eq_true, if_false, Option.some.injEq,
                  Prod.mk.injEq] at h
                obtain ⟨hm, hr⟩ := h
                subst hm; subst hr
                refine ⟨?_, by simp⟩
                rw [List.append_nil] at hr2
                simp only [List.append_nil, List.cons_append, List.cons.injEq, true_and]
                rw [hr2]
                exact hrest.symm
              | cons e r3' =>
                have hr2 : r2.takeWhile (fun x => x.isAlpha) ++ (e :: r3') = r2 := by
                  rw [← hr3]; exact List.takeWhile_append_dropWhile _ _
                cases hw : isWordChar e with
                | true => simp [matchWikiWordAt, hu, hle, hr1, hd, htl, hr3, hw] at h
                | false =>
                  simp only [matchWikiWordAt, hu, hle, hr1, hd, htl, hr3, hw] at h
                  simp only [if_true, Bool.false_eq_true, if_false, Option.some.injEq,
                    Prod.mk.injEq] at h
                  obtain ⟨hm, hr⟩ := h
                  subst hm; subst hr
                  refine ⟨?_, by simp⟩
                  simp only [List.cons_append, List.cons.injEq, true_and, List.append_assoc]
                  rw [hr2]
                  exact hrest.symm

theorem matchWikiWordAt_length {l m r : List Char}
    (h : matchWikiWordAt l = some (m, r)) : r.length < l.length := by
  obtain ⟨hl, hm⟩ := matchWikiWordAt_append h
  subst hl
  simp only [List.length_append]
  cases m with
  | nil => exact absurd rfl hm
  | cons a t => simp

/-! ## Fuel irrelevance for the substitution scan -/

theorem subWikiRunF_nil (f : Nat) (b : Bool) : subWikiRunF f b [] = [] := by
  cases f <;> rfl

theorem subWikiRunF_fuel :
    ∀ (f1 : Nat) (f2 : Nat) (b : Bool) (l : List Char), l.length ≤ f1 → l.length ≤ f2 →
      subWikiRunF f1 b l = subWikiRunF f2 b l := by
  intro f1
  induction f1 with
  | zero =>
    intro f2 b l h1 _
    have : l = [] := List.length_eq_zero.mp (Nat.le_zero.mp h1)
    subst this
    rw [subWikiRunF_nil, subWikiRunF_nil]
  | succ f1' ih =>
    intro f2 b l h1 h2
    cases l with
    | nil => rw [subWikiRunF_nil, subWikiRunF_nil]
    | cons c rest =>
      cases f2 with
      | zero => exact absurd h2 (by simp)
      | succ f2' =>
        have hr : rest.length ≤ f1' := Nat.le_of_succ_le_succ h1
        have hr2 : rest.length ≤ f2' := Nat.le_of_succ_le_succ h2
        cases b with
        | true =>
          rw [show subWikiRunF (f1' + 1) true (c :: rest) =
                c :: subWikiRunF f1' (isWordChar c) rest from rfl,
              show subWikiRunF (f2' + 1) true (c :: rest) =
                c :: subWikiRunF f2' (isWordChar c) rest from rfl,
              ih f2' (isWordChar c) rest hr hr2]
        | false =>
          rw [show subWikiRunF (f1' + 1) false (c :: rest) =
                (match matchWikiWordAt (c :: rest) with
                 | some (m, r) => wikiLink m ++ subWikiRunF f1' true r
                 | none => c :: subWikiRunF f1' (isWordChar c) rest) from rfl,
              show subWikiRunF (f2' + 1) false (c :: rest) =
                (match matchWikiWordAt (c :: rest) with
                 | some (m, r) => wikiLink m ++ subWikiRunF f2' true r
                 | none => c :: subWikiRunF f2' (isWordChar c) rest) from rfl]
          cases hm : matchWikiWordAt (c :: rest) with
          | none =>
            show c :: subWikiRunF f1' (isWordChar c) rest =
              c :: subWikiRunF f2' (isWordChar c) rest
            rw [ih f2' (isWordChar c) rest hr hr2]
          | some p =>
            obtain ⟨m, r⟩ := p
            have hlen := matchWikiWordAt_length hm
            show wikiLink m ++ subWikiRunF f1' true r = wikiLink m ++ subWikiRunF f2' true r
            rw [ih f2' true r (Nat.le_of_lt_succ (Nat.lt_of_lt_of_le hlen h1))
              (Nat.le_of_lt_succ (Nat.lt_of_lt_of_le hlen h2))]

/-! ## Failure modes of the matcher -/

theorem matchWikiWordAt_not_upper {c : Char} {rest : List Char} (h : c.isUpper = false) :
    matchWikiWordAt (c :: rest) = none := by
  simp [matchWikiWordAt, h]

theorem matchWikiWordAt_low_empty {c : Char} {rest : List Char}
    (h : (rest.takeWhile (fun x => x.isLower)).isEmpty = true) :
    matchWikiWordAt (c :: rest) = none := by
  simp [matchWikiWordAt, h]

theorem matchWikiWordAt_r1_nil {c : Char} {rest : List Char}
    (h : rest.dropWhile (fun x => x.isLower) = []) :
    matchWikiWordAt (c :: rest) = none := by
  simp [matchWikiWordAt, h]

theorem matchWikiWordAt_mid_not_upper {c : Char} {rest : List Char} {d : Char}
    {r2 : List Char} (h1 : rest.dropWhile (fun x => x.isLower) = d :: r2)
    (h2 : d.isUpper = false) :
    matchWikiWordAt (c :: rest) = none := by
  simp [matchWikiWordAt, h1, h2]

/-! ## Runs that the scan copies verbatim -/

theorem subWikiRunF_gap :
    ∀ (g : List Char) (f : Nat) (b : Bool) (m : List Char),
      (∀ c ∈ g, isWordChar c = false) → (b = false ∨ g ≠ []) →
      (g ++ m).length ≤ f →
      subWikiRunF f b (g ++ m) = g ++ subWikiRunF f false m := by
  intro g
  induction g with
  | nil =>
    intro f b m _ hb _
    rcases hb with hb | hb
    · subst hb; simp
    · exact absurd rfl hb
  | cons c g' ih =>
    intro f b m hg hb hf
    cases f with
    | zero => exact absurd hf (by simp)
    | succ f' =>
      have hlen : (g' ++ m).length ≤ f' := by
        simpa using Nat.le_of_succ_le_succ hf
      have hmlen : m.length ≤ f' := le_trans (by simp) hlen
      have hcw : isWordChar c = false := hg c (by simp)
      have hcu : c.isUpper = false := (not_wordChar hcw).1
      have hrec : subWikiRunF f' (isWordChar c) (g' ++ m) = g' ++ subWikiRunF f' false m :=
        ih f' (isWordChar c) m (fun x hx => hg x (by simp [hx])) (Or.inl hcw) hlen
      have hfix : subWikiRunF f' false m = subWikiRunF (f' + 1) false m :=
        subWikiRunF_fuel f' (f' + 1) false m hmlen (Nat.le_succ_of_le hmlen)
      cases b with
      | true =>
        show c :: subWikiRunF f' (isWordChar c) (g' ++ m) =
          (c :: g') ++ subWikiRunF (f' + 1) false m
        rw [hrec, ← hfix]
        simp
      | false =>
        have hstep : subWikiRunF (f' + 1) false (c :: (g' ++ m)) =
            c :: subWikiRunF f' (isWordChar c) (g' ++ m) := by
          show (match matchWikiWordAt (c :: (g' ++ m)) with
                | some (mm, r) => wikiLink mm ++ subWikiRunF f' true r
                | none => c :: subWikiRunF f' (isWordChar c) (g' ++ m)) =
            c :: subWikiRunF f' (isWordChar c) (g' ++ m)
          rw [matchWikiWordAt_not_upper hcu]
        rw [List.cons_append, hstep, hrec, ← hfix]
        simp

theorem subWikiRunF_lower :
    ∀ (t : List Char) (f : Nat) (b : Bool) (m : List Char),
      (∀ c ∈ t, c.isLower = true) → t ≠ [] →
      (t ++ m).length ≤ f →
      subWikiRunF f b (t ++ m) = t ++ subWikiRunF f true m := by
  intro t
  induction t with
  | nil => intro f b m _ hne _; exact absurd rfl hne
  | cons c t' ih =>
    intro f b m ht _ hf
    cases f with
    | zero => exact absurd hf (by simp)
    | succ f' =>
      have hlen : (t' ++ m).length ≤ f' := by
        simpa using Nat.le_of_succ_le_succ hf
      have hmlen : m.length ≤ f' := le_trans (by simp) hlen
      have hcl : c.isLower = true := ht c (by simp)
      have hcu : c.isUpper = false := isLower_isUpper hcl
      have hcw : isWordChar c = true := isLower_isWordChar hcl
      have hfix : subWikiRunF f' true m = subWikiRunF (f' + 1) true m :=
        subWikiRunF_fuel f' (f' + 1) true m hmlen (Nat.le_succ_of_le hmlen)
      have htail : subWikiRunF f' true (t' ++ m) = t' ++ subWikiRunF (f' + 1) true m := by
        cases ht' : t' with
        | nil => simp [hfix]
        | cons x xs =>
          rw [← ht', ih f' true m (fun x hx => ht x (by simp [hx])) (by simp [ht']) hlen, hfix]
      cases b with
      | true =>
        show c :: subWikiRunF f' (isWordChar c) (t' ++ m) =
          (c :: t') ++ subWikiRunF (f' + 1) true m
        rw [hcw, htail]
        simp
      | false =>
        have hstep : subWikiRunF (f' + 1) false (c :: (t' ++ m)) =
            c :: subWikiRunF f' (isWordChar c) (t' ++ m) := by
          show (match matchWikiWordAt (c :: (t' ++ m)) with
                | some (mm, r) => wikiLink mm ++ subWikiRunF f' true r
                | none => c :: subWikiRunF f' (isWordChar c) (t' ++ m)) =
            c :: subWikiRunF f' (isWordChar c) (t' ++ m)
          rw [matchWikiWordAt_not_upper hcu]
        rw [List.cons_append, hstep, hcw, htail]
        simp

theorem subWikiRunF_upper :
    ∀ (t : List Char) (f : Nat) (b : Bool) (m : List Char),
      (∀ c ∈ t, c.isUpper = true) → t ≠ [] →
      (∀ e, m.head? = some e → e.isLower = false) →
      (t ++ m).length ≤ f →
      subWikiRunF f b (t ++ m) = t ++ subWikiRunF f true m := by
  intro t
  induction t with
  | nil => intro f b m _ hne _ _; exact absurd rfl hne
  | cons c t' ih =>
    intro f b m ht _ hm hf
    cases f with
    | zero => exact absurd hf (by simp)
    | succ f' =>
      have hlen : (t' ++ m).length ≤ f' := by
        simpa using Nat.le_of_succ_le_succ hf
      have hmlen : m.length ≤ f' := le_trans (by simp) hlen
      have hcu : c.isUpper = true := ht c (by simp)
      have hcw : isWordChar c = true := isUpper_isWordChar hcu
      have hfix : subWikiRunF f' true m = subWikiRunF (f' + 1) true m :=
        subWikiRunF_fuel f' (f' + 1) true m hmlen (Nat.le_succ_of_le hmlen)
      have hlow : ((t' ++ m).takeWhile (fun x => x.isLower)).isEmpty = true := by
        cases ht' : t' with
        | nil =>
          cases hmc : m with
          | nil => simp
          | cons e m' =>
            have : e.isLower = false := hm e (by rw [hmc]; rfl)
            simp [List.takeWhile_cons, this]
        | cons x xs =>
          have hxu : x.isUpper = true := ht x (by simp [ht'])
          simp [List.takeWhile_cons, isUpper_isLower hxu]
      have hmatch : matchWikiWordAt (c :: (t' ++ m)) = none :=
        matchWikiWordAt_low_empty hlow
      have htail : subWikiRunF f' true (t' ++ m) = t' ++ subWikiRunF (f' + 1) true m := by
        cases ht' : t' with
        | nil => simp [hfix]
        | cons x xs =>
          rw [← ht', ih f' true m (fun x hx => ht x (by simp [hx])) (by simp [ht']) hm hlen,
            hfix]
      cases b with
      | true =>
        show c :: subWikiRunF f' (isWordChar c) (t' ++ m) =
          (c :: t') ++ subWikiRunF (f' + 1) true m
        rw [hcw, htail]
        simp
      | false =>
        have hstep : subWikiRunF (f' + 1) false (c :: (t' ++ m)) =
            c :: subWikiRunF f' (isWordChar c) (t' ++ m) := by
          show (match matchWikiWordAt (c :: (t' ++ m)) with
                | some (mm, r) => wikiLink mm ++ subWikiRunF f' true r
                | none => c :: subWikiRunF f' (isWordChar c) (t' ++ m)) =
            c :: subWikiRunF f' (isWordChar c) (t' ++ m)
          rw [hmatch]
        rw [List.cons_append, hstep, hcw, htail]
        simp

theorem subWikiRunF_cap :
    ∀ (c : Char) (t' : List Char) (f : Nat) (b : Bool) (m : List Char),
      c.isUpper = true → (∀ x ∈ t', x.isLower = true) →
      (∀ e, m.head? = some e → isWordChar e = false) →
      ((c :: t') ++ m).length ≤ f →
      subWikiRunF f b ((c :: t') ++ m) = (c :: t') ++ subWikiRunF f true m := by
  intro c t' f b m hcu ht' hm hf
  cases f with
  | zero => exact absurd hf (by simp)
  | succ f' =>
    have hlen : (t' ++ m).length ≤ f' := by
      simpa using Nat.le_of_succ_le_succ hf
    have hmlen : m.length ≤ f' := le_trans (by simp) hlen
    have hcw : isWordChar c = true := isUpper_isWordChar hcu
    have hfix : subWikiRunF f' true m = subWikiRunF (f' + 1) true m :=
      subWikiRunF_fuel f' (f' + 1) true m hmlen (Nat.le_succ_of_le hmlen)
    have hmlow : m.takeWhile (fun x => x.isLower) = [] := by
      cases hmc : m with
      | nil => rfl
      | cons e m' =>
        have : e.isLower = false := ((not_wordChar (hm e (by rw [hmc]; rfl))).2).1
        simp [List.takeWhile_cons, this]
    have hmdrop : m.dropWhile (fun x => x.isLower) = m := by
      cases hmc : m with
      | nil => rfl
      | cons e m' =>
        have : e.isLower = false := ((not_wordChar (hm e (by rw [hmc]; rfl))).2).1
        simp [List.dropWhile_cons, this]
    have hmatch : matchWikiWordAt (c :: (t' ++ m)) = none := by
      have htake : (t' ++ m).takeWhile (fun x => x.isLower) = t' := by
        rw [takeWhile_append_all (fun x hx => ht' x hx), hmlow, List.append_nil]
      have hdropm : (t' ++ m).dropWhile (fun x => x.isLower) = m := by
        rw [dropWhile_append_all (fun x hx => ht' x hx), hmdrop]
      cases ht'' : t' with
      | nil =>
        rw [ht''] at htake
        apply matchWikiWordAt_low_empty
        rw [htake]
        rfl
      | cons x xs =>
        rw [ht''] at hdropm
        cases hmc : m with
        | nil =>
          rw [hmc] at hdropm
          exact matchWikiWordAt_r1_nil hdropm
        | cons e m' =>
          rw [hmc] at hdropm
          have heu : e.isUpper = false := (not_wordChar (hm e (by rw [hmc]; rfl))).1
          exact matchWikiWordAt_mid_not_upper hdropm heu
    have htail : subWikiRunF f' true (t' ++ m) = t' ++ subWikiRunF (f' + 1) true m := by
      cases ht'' : t' with
      | nil => simp [hfix]
      | cons x xs =>
        rw [← ht'', subWikiRunF_lower t' f' true m ht' (by simp [ht'']) hlen, hfix]
    cases b with
    | true =>
      show c :: subWikiRunF f' (isWordChar c) (t' ++ m) =
        (c :: t') ++ subWikiRunF (f' + 1) true m
      rw [hcw, htail]
      simp
    | false =>
      have hstep : subWikiRunF (f' + 1) false (c :: (t' ++ m)) =
          c :: subWikiRunF f' (isWordChar c) (t' ++ m) := by
        show (match matchWikiWordAt (c :: (t' ++ m)) with
              | some (mm, r) => wikiLink mm ++ subWikiRunF f' true r
              | none => c :: subWikiRunF f' (isWordChar c) (t' ++ m)) =
          c :: subWikiRunF f' (isWordChar c) (t' ++ m)
        rw [hmatch]
      rw [List.cons_append, hstep, hcw, htail]
      simp

/-! ## A wiki word at a boundary matches exactly itself -/

theorem matchWikiWordAt_exact :
    ∀ (t rest : List Char), isWikiWord t = true →
      (∀ e, rest.head? = some e → isWordChar e = false) →
      matchWikiWordAt (t ++ rest) = some (t, rest) := by
  intro t rest hw hb
  cases t with
  | nil => simp [isWikiWord] at hw
  | cons c tr =>
    simp only [isWikiWord] at hw
    cases hr1 : tr.dropWhile (fun x => x.isLower) with
    | nil => rw [hr1] at hw; simp at hw
    | cons d r2 =>
      rw [hr1] at hw
      simp only [Bool.and_eq_true, Bool.not_eq_true'] at hw
      obtain ⟨hcu, hlow, hdu, hr2ne, hall⟩ := hw
      have hdl : d.isLower = false := isUpper_isLower hdu
      have hlowmem : ∀ x ∈ tr.takeWhile (fun x => x.isLower), x.isLower = true :=
        fun x hx => List.mem_takeWhile_imp hx
      have hallmem : ∀ x ∈ r2, x.isAlpha = true := fun x hx => List.all_eq_true.mp hall x hx
      have htr : tr.takeWhile (fun x => x.isLower) ++ (d :: r2) = tr := by
        rw [← hr1]; exact List.takeWhile_append_dropWhile _ _
      have hsplit : tr ++ rest = tr.takeWhile (fun x => x.isLower) ++ (d :: (r2 ++ rest)) := by
        conv_lhs => rw [← htr]
        simp
      have hA1 : (tr ++ rest).takeWhile (fun x => x.isLower)
          = tr.takeWhile (fun x => x.isLower) := by
        rw [hsplit, takeWhile_append_all hlowmem]
        simp [List.takeWhile_cons, hdl]
      have hA2 : (tr ++ rest).dropWhile (fun x => x.isLower) = d :: (r2 ++ rest) := by
        rw [hsplit, dropWhile_append_all hlowmem]
        simp [List.dropWhile_cons, hdl]
      have hA3 : (r2 ++ rest).takeWhile (fun x => x.isAlpha) = r2 := by
        rw [takeWhile_append_all hallmem]
        cases hrc : rest with
        | nil => simp
        | cons e r' =>
          have : e.isAlpha = false := ((not_wordChar (hb e (by rw [hrc]; rfl))).2).2
          simp [List.takeWhile_cons, this]
      have hA4 : (r2 ++ rest).dropWhile (fun x => x.isAlpha) = rest := by
        rw [dropWhile_append_all hallmem]
        cases hrc : rest with
        | nil => rfl
        | cons e r' =>
          have : e.isAlpha = false := ((not_wordChar (hb e (by rw [hrc]; rfl))).2).2
          simp [List.dropWhile_cons, this]
      show matchWikiWordAt (c :: (tr ++ rest)) = some (c :: tr, rest)
      simp only [matchWikiWordAt, hA1, hA2, hA3, hA4, hcu, hlow, hdu, hr2ne,
        eq_self_iff_true, if_true, Bool.false_eq_true, if_false]
      cases hrc : rest with
      | nil => simp [htr]
      | cons e r' =>
        have hew : isWordChar e = false := hb e (by rw [hrc]; rfl)
        simp [hew, htr]

/-! ## The scan over a token/gap decomposition -/

theorem subWikiRunF_glue :
    ∀ (ps : List (List Char × List Char)) (f : Nat),
      goodPairs ps = true → (glueIn ps).length ≤ f →
      subWikiRunF f false (glueIn ps) = glueOut ps := by
  intro ps
  induction ps with
  | nil => intro f _ _; exact subWikiRunF_nil f false
  | cons p rest ih =>
    obtain ⟨t, g⟩ := p
    intro f hgood hf
    simp only [goodPairs, Bool.and_eq_true] at hgood
    obtain ⟨⟨⟨hw, hgall⟩, hor⟩, hrest⟩ := hgood
    have hgmem : ∀ x ∈ g, isWordChar x = false := by
      intro x hx
      have := List.all_eq_true.mp hgall x hx
      simpa using this
    have hbound : ∀ e, (g ++ glueIn rest).head? = some e → isWordChar e = false := by
      intro e he
      cases hgc : g with
      | cons x xs =>
        rw [hgc] at he
        simp only [List.cons_append, List.head?_cons, Option.some.injEq] at he
        rw [← he]
        exact hgmem x (by rw [hgc]; simp)
      | nil =>
        rw [hgc] at he
        have hre : rest = [] := by
          rw [hgc] at hor
          simp at hor
          exact hor
        rw [hre] at he
        simp [glueIn] at he
    have htne : t ≠ [] := by
      intro hteq
      rw [hteq] at hw
      simp [isWikiWord] at hw
    cases ht : t with
    | nil => exact absurd ht htne
    | cons c tt =>
      rw [← ht]
      have hglue : glueIn ((t, g) :: rest) = t ++ (g ++ glueIn rest) := by
        simp [glueIn]
      rw [hglue] at hf ⊢
      have hmatch : matchWikiWordAt (t ++ (g ++ glueIn rest)) = some (t, g ++ glueIn rest) :=
        matchWikiWordAt_exact t (g ++ glueIn rest) hw hbound
      cases f with
      | zero =>
        rw [ht] at hf
        exact absurd hf (by simp)
      | succ f' =>
        have hstep : subWikiRunF (f' + 1) false (t ++ (g ++ glueIn rest)) =
            wikiLink t ++ subWikiRunF f' true (g ++ glueIn rest) := by
          rw [ht]
          rw [ht] at hmatch
          show (match matchWikiWordAt (c :: (tt ++ (g ++ glueIn rest))) with
                | some (mm, r) => wikiLink mm ++ subWikiRunF f' true r
                | none => c :: subWikiRunF f' (isWordChar c)
                    (tt ++ (g ++ glueIn rest))) =
            wikiLink (c :: tt) ++ subWikiRunF f' true (g ++ glueIn rest)
          rw [show (c :: tt) ++ (g ++ glueIn rest) = c :: (tt ++ (g ++ glueIn rest))
              from rfl] at hmatch
          rw [hmatch]
        rw [hstep]
        have hlen2 : (g ++ glueIn rest).length ≤ f' := by
          rw [ht] at hf
          simp only [List.length_append, List.length_cons] at hf ⊢
          omega
        have hlen3 : (glueIn rest).length ≤ f' := le_trans (by simp) hlen2
        cases hgc : g with
        | nil =>
          have hre : rest = [] := by
            rw [hgc] at hor
            simp at hor
            exact hor
          rw [hre]
          simp [glueIn, glueOut, subWikiRunF_nil]
        | cons x xs =>
          rw [← hgc]
          have hgap : subWikiRunF f' true (g ++ glueIn rest) =
              g ++ subWikiRunF f' false (glueIn rest) :=
            subWikiRunF_gap g f' true (glueIn rest) hgmem (Or.inr (by simp [hgc])) hlen2
          rw [hgap, ih f' hrest hlen3]
          simp [glueOut]

theorem subWikiRunF_gap_id (g1 : List Char) (L : Nat)
    (hg1 : ∀ c ∈ g1, isWordChar c = false) (hlen : g1.length ≤ L) (b : Bool) :
    subWikiRunF L b g1 = g1 := by
  cases hg : g1 with
  | nil => exact subWikiRunF_nil L b
  | cons x xs =>
    rw [← hg]
    have := subWikiRunF_gap g1 L b [] hg1 (Or.inr (by simp [hg])) (by simpa using hlen)
    simpa [subWikiRunF_nil] using this

/-! ## Claim theorems about the renderer -/

/-- Claim C9 (confirmed): `render("")` returns `""` without raising: the
wiki-word substitution leaves the empty string unchanged and the (modelled)
markdown conversion of `""` is `""`. -/
theorem C9_render_empty :
    wikiSub "" = "" ∧ markdown_markdown "" = "" ∧ render "" = "" :=
  ⟨rfl, rfl, rfl⟩

/-- Claim C5, counterexample: `WikiWord1` is a whole-word wiki-word token in
the claim's own wording (uppercase, lowercase run, uppercase, then more
letters/digits, bounded by non-letters), yet the substitution leaves the
input ` WikiWord1 ` completely unchanged — in particular it does not produce
the hyperlink the claim requires — because the source regex tail
`[A-Za-z]+\b` admits no digit and the digit `1` is a word character for
`\b`. -/
theorem C5_counterexample :
    specIsWikiWordToken "WikiWord1".data = true ∧
      wikiSub " WikiWord1 " = " WikiWord1 " ∧
      wikiSub " WikiWord1 " ≠
        String.mk (" ".data ++ wikiLink "WikiWord1".data ++ " ".data) := by
  refine ⟨by decide, by decide, by decide⟩

/-- Claim C5 (amended): for inputs made of whole-word wiki-word tokens — an
uppercase letter, one or more lowercase letters, another uppercase letter,
then one or more further letters (digits excluded), with word boundaries
taken against letters, digits and underscore — separated by runs of
non-word characters, the substitution replaces every such token by a
hyperlink whose target is `/view/` followed by the exact matched text and
whose label is the unmodified matched text, and leaves the separators
unchanged. -/
theorem C5_wikiword_linking (g0 : List Char) (ps : List (List Char × List Char))
    (hg0 : ∀ c ∈ g0, isWordChar c = false) (hps : goodPairs ps = true) :
    wikiSub (String.mk (g0 ++ glueIn ps)) = String.mk (g0 ++ glueOut ps) := by
  unfold wikiSub
  congr 1
  show subWikiRunF (g0 ++ glueIn ps).length false (g0 ++ glueIn ps) = g0 ++ glueOut ps
  rw [subWikiRunF_gap g0 (g0 ++ glueIn ps).length false (glueIn ps) hg0 (Or.inl rfl)
    (le_refl _)]
  rw [subWikiRunF_glue ps (g0 ++ glueIn ps).length hps (by simp)]

theorem C5_wikiword_linking_witness :
    (∀ c ∈ " ".data, isWordChar c = false) ∧
      goodPairs [("WikiWord".data, " ".data)] = true ∧
      wikiSub (String.mk (" ".data ++ glueIn [("WikiWord".data, " ".data)])) =
        String.mk (" ".data ++ glueOut [("WikiWord".data, " ".data)]) :=
  ⟨by decide, by decide, C5_wikiword_linking " ".data [("WikiWord".data, " ".data)]
    (by decide) (by decide)⟩

/-- Claim C6 (confirmed): a token that is all-lowercase, all-uppercase, or a
single-capitalized word, placed between runs of non-word characters (or the
ends of the input), is never turned into a hyperlink by the wiki-word
substitution: the input is returned verbatim. -/
theorem C6_plain_tokens_unlinked (g0 t g1 : List Char)
    (hg0 : ∀ c ∈ g0, isWordChar c = false) (hg1 : ∀ c ∈ g1, isWordChar c = false)
    (ht : (t ≠ [] ∧ ∀ c ∈ t, c.isLower = true) ∨ (t ≠ [] ∧ ∀ c ∈ t, c.isUpper = true) ∨
      isCapitalized t = true) :
    wikiSub (String.mk (g0 ++ t ++ g1)) = String.mk (g0 ++ t ++ g1) := by
  have hmh1 : ∀ e, g1.head? = some e → e.isLower = false := by
    intro e he
    cases hgc : g1 with
    | nil => rw [hgc] at he; simp at he
    | cons x xs =>
      rw [hgc] at he
      simp only [List.head?_cons, Option.some.injEq] at he
      rw [← he]
      exact ((not_wordChar (hg1 x (by rw [hgc]; simp))).2).1
  have hmh2 : ∀ e, g1.head? = some e → isWordChar e = false := by
    intro e he
    cases hgc : g1 with
    | nil => rw [hgc] at he; simp at he
    | cons x xs =>
      rw [hgc] at he
      simp only [List.head?_cons, Option.some.injEq] at he
      rw [← he]
      exact hg1 x (by rw [hgc]; simp)
  unfold wikiSub
  congr 1
  show subWikiRunF (g0 ++ t ++ g1).length false (g0 ++ t ++ g1) = g0 ++ t ++ g1
  rw [List.append_assoc]
  rw [subWikiRunF_gap g0 (g0 ++ (t ++ g1)).length false (t ++ g1) hg0 (Or.inl rfl)
    (le_refl _)]
  congr 1
  have hlen2 : (t ++ g1).length ≤ (g0 ++ (t ++ g1)).length := by simp
  have hlen3 : g1.length ≤ (g0 ++ (t ++ g1)).length := by
    simp only [List.length_append]
    omega
  rcases ht with ⟨hne, hall⟩ | ⟨hne, hall⟩ | hcap
  · rw [subWikiRunF_lower t (g0 ++ (t ++ g1)).length false g1 hall hne hlen2]
    rw [subWikiRunF_gap_id g1 (g0 ++ (t ++ g1)).length hg1 hlen3 true]
  · rw [subWikiRunF_upper t (g0 ++ (t ++ g1)).length false g1 hall hne hmh1 hlen2]
    rw [subWikiRunF_gap_id g1 (g0 ++ (t ++ g1)).length hg1 hlen3 true]
  · cases htc : t with
    | nil => rw [htc] at hcap; simp [isCapitalized] at hcap
    | cons c t' =>
      rw [htc] at hcap
      simp only [isCapitalized, Bool.and_eq_true] at hcap
      obtain ⟨hcu, hlow⟩ := hcap
      have hlow' : ∀ x ∈ t', x.isLower = true := fun x hx => List.all_eq_true.mp hlow x hx
      rw [htc] at hlen2 hlen3
      rw [subWikiRunF_cap c t' (g0 ++ (c :: t' ++ g1)).length false g1 hcu hlow' hmh2 hlen2]
      rw [subWikiRunF_gap_id g1 (g0 ++ (c :: t' ++ g1)).length hg1 hlen3 true]

theorem C6_plain_tokens_unlinked_witness :
    ((∀ c ∈ "WIKI".data, c.isUpper = true) ∧ isCapitalized "Wiki".data = true) ∧
      wikiSub (String.mk (([] : List Char) ++ "Wiki".data ++ " ".data)) =
        String.mk (([] : List Char) ++ "Wiki".data ++ " ".data) :=
  ⟨⟨by decide, by decide⟩,
    C6_plain_tokens_unlinked [] "Wiki".data " ".data (by simp) (by decide)
      (Or.inr (Or.inr (by decide)))⟩

/-! ## Datastore helper lemmas -/

theorem find?_eq_none_of_all {α : Type} {p : α → Bool} {l : List α}
    (h : ∀ x ∈ l, p x = false) : l.find? p = none :=
  List.find?_eq_none.mpr (fun x hx => by simp [h x hx])

theorem map_eq_self_of {α : Type} {f : α → α} {l : List α}
    (h : ∀ x ∈ l, f x = x) : l.map f = l := by
  induction l with
  | nil => rfl
  | cons a l' ih => simp [h a (by simp), ih (fun x hx => h x (by simp [hx]))]

theorem filter_append_news {olds news : List WikiRevision} {K nid : Nat}
    (hwf : ∀ r ∈ olds, r.wiki_page < nid) (hK : nid ≤ K)
    (hwp : ∀ r ∈ news, r.wiki_page = K) :
    (olds ++ news).filter (fun r => r.wiki_page == K) = news := by
  rw [List.filter_append]
  have h0 : olds.filter (fun r => r.wiki_page == K) = [] :=
    List.filter_eq_nil_iff.mpr (fun r hr => by
      have := hwf r hr
      simp only [beq_iff_eq]
      omega)
  have hn : news.filter (fun r => r.wiki_page == K) = news :=
    List.filter_eq_self.mpr (fun r hr => by simp [hwp r hr])
  rw [h0, hn, List.nil_append]

theorem foldl_pickLatest_incr :
    ∀ (news : List WikiRevision) (m : WikiRevision),
      news.map (fun r => r.version_number) =
        List.range' (m.version_number + 1) news.length →
      ∃ r, news.foldl pickLatest (some m) = some r ∧
        r.version_number = m.version_number + news.length := by
  intro news
  induction news with
  | nil => intro m _; exact ⟨m, rfl, rfl⟩
  | cons x xs ih =>
    intro m hm
    simp only [List.map_cons, List.length_cons, List.range'_succ, List.cons.injEq] at hm
    obtain ⟨hx, hxs⟩ := hm
    have hpick : pickLatest (some m) x = some x := by
      simp [pickLatest, hx]
    rw [List.foldl_cons, hpick]
    obtain ⟨r, hr, hv⟩ := ih x (by rw [hx]; exact hxs)
    exact ⟨r, hr, by rw [hv, hx]; simp only [List.length_cons]; omega⟩

theorem latestRevision_of_range {revisions : List WikiRevision} {K k : Nat}
    {news : List WikiRevision}
    (hfil : revisions.filter (fun r => r.wiki_page == K) = news)
    (hmap : news.map (fun r => r.version_number) = List.range' 1 k)
    (hk : 1 ≤ k) :
    ∃ r, latestRevision revisions K = some r ∧ r.version_number = k := by
  unfold latestRevision
  rw [hfil]
  cases news with
  | nil =>
    rw [List.map_nil] at hmap
    have := congrArg List.length hmap
    simp at this
    omega
  | cons x xs =>
    cases k with
    | zero => omega
    | succ k' =>
      simp only [List.map_cons, List.range'_succ, List.cons.injEq] at hmap
      obtain ⟨hx, hxs⟩ := hmap
      have hlen : xs.length = k' := by
        have := congrArg List.length hxs
        simpa using this
      rw [List.foldl_cons]
      have hpick : pickLatest none x = some x := rfl
      rw [hpick]
      obtain ⟨r, hr, hv⟩ := foldl_pickLatest_incr xs x (by rw [hx, hlen]; exact hxs)
      exact ⟨r, hr, by rw [hv, hx, hlen]; omega⟩

theorem resolveWikiUser_some (s : Datastore) (cu : Option String) :
    ∃ a s1, resolveWikiUser s cu false = some (a, s1) := by
  unfold resolveWikiUser
  cases hf : s.users.find? (fun w => w.wiki_user == cu) with
  | some w => exact ⟨w.key, s, rfl⟩
  | none => exact ⟨s.nextId, _, rfl⟩

theorem resolveWikiUser_frame {s : Datastore} {cu : Option String} {fU : Bool}
    {a : Nat} {s1 : Datastore} (h : resolveWikiUser s cu fU = some (a, s1)) :
    s1.pages = s.pages ∧ s1.revisions = s.revisions ∧ s.nextId ≤ s1.nextId := by
  unfold resolveWikiUser at h
  cases hf : s.users.find? (fun w => w.wiki_user == cu) with
  | some w =>
    rw [hf] at h
    injection h with h'
    injection h' with h1 h2
    rw [← h2]
    exact ⟨rfl, rfl, le_refl _⟩
  | none =>
    rw [hf] at h
    cases fU with
    | true => simp at h
    | false =>
      simp only [Bool.false_eq_true, if_false, Option.some.injEq, Prod.mk.injEq] at h
      rw [← h.2]
      exact ⟨rfl, rfl, by simp⟩

theorem resolveWikiUser_users {s : Datastore} {cu : Option String}
    {a : Nat} {s1 : Datastore} (h : resolveWikiUser s cu false = some (a, s1)) :
    s1.users = (if (s.users.find? (fun w => w.wiki_user == cu)).isSome then s.users
                else s.users ++ [{ key := s.nextId, wiki_user := cu }]) := by
  unfold resolveWikiUser at h
  cases hf : s.users.find? (fun w => w.wiki_user == cu) with
  | some w =>
    rw [hf] at h
    injection h with h'
    injection h' with h1 h2
    rw [← h2]
    simp [hf]
  | none =>
    rw [hf] at h
    simp only [Bool.false_eq_true, if_false, Option.some.injEq, Prod.mk.injEq] at h
    rw [← h.2]
    simp [hf]

/-! ## Characterizations of `SaveHandler.post` (wiki_step2) -/

theorem saveStep2_new (s : Datastore) (u : Option String) (t b : String) (now : Nat)
    (habs : s.pages.find? (fun p => p.title == t) = none) :
    ∃ a K s2, saveStep2 s u t b now false false false = .ok u.isNone s2 ∧
      s.nextId ≤ K ∧
      s2.pages = s.pages ++ [{ key := K, title := t }] ∧
      s2.revisions = s.revisions ++
        [{ version_number := 1, revision_body := b, author := a, wiki_page := K,
           created := now }] := by
  cases hf : s.users.find? (fun w => w.wiki_user == u) with
  | some w =>
    refine ⟨w.key, s.nextId,
      { users := s.users,
        pages := s.pages ++ [{ key := s.nextId, title := t }],
        revisions := s.revisions ++
          [{ version_number := 1, revision_body := b, author := w.key,
             wiki_page := s.nextId, created := now }],
        nextId := s.nextId + 1 }, ?_, le_refl _, rfl, rfl⟩
    simp only [saveStep2, resolveWikiUser, hf, habs, Bool.false_eq_true, if_false,
      eq_self_iff_true, if_true]
  | none =>
    refine ⟨s.nextId, s.nextId + 1,
      { users := s.users ++ [{ key := s.nextId, wiki_user := u }],
        pages := s.pages ++ [{ key := s.nextId + 1, title := t }],
        revisions := s.revisions ++
          [{ version_number := 1, revision_body := b, author := s.nextId,
             wiki_page := s.nextId + 1, created := now }],
        nextId := s.nextId + 2 }, ?_, by simp, rfl, rfl⟩
    simp only [saveStep2, resolveWikiUser, hf, habs, Bool.false_eq_true, if_false,
      eq_self_iff_true, if_true]

theorem saveStep2_old (s : Datastore) (u : Option String) (t b : String) (now : Nat)
    {pg : WikiContent} (hpg : s.pages.find? (fun p => p.title == t) = some pg)
    {lr : WikiRevision} (hlr : latestRevision s.revisions pg.key = some lr) :
    ∃ a s2, saveStep2 s u t b now false false false = .ok u.isNone s2 ∧
      s2.pages = s.pages ∧
      s2.revisions = s.revisions ++
        [{ version_number := lr.version_number + 1, revision_body := b, author := a,
           wiki_page := pg.key, created := now }] ∧
      s.nextId ≤ s2.nextId := by
  cases hf : s.users.find? (fun w => w.wiki_user == u) with
  | some w =>
    refine ⟨w.key,
      { users := s.users, pages := s.pages,
        revisions := s.revisions ++
          [{ version_number := lr.version_number + 1, revision_body := b,
             author := w.key, wiki_page := pg.key, created := now }],
        nextId := s.nextId },
      ?_, rfl, rfl, le_refl _⟩
    simp only [saveStep2, resolveWikiUser, hf, hpg, hlr, Bool.false_eq_true, if_false,
      eq_self_iff_true, if_true]
  | none =>
    refine ⟨s.nextId,
      { users := s.users ++ [{ key := s.nextId, wiki_user := u }],
        pages := s.pages,
        revisions := s.revisions ++
          [{ version_number := lr.version_number + 1, revision_body := b,
             author := s.nextId, wiki_page := pg.key, created := now }],
        nextId := s.nextId + 1 }, ?_, rfl, rfl, by simp⟩
    simp only [saveStep2, resolveWikiUser, hf, hpg, hlr, Bool.false_eq_true, if_false,
      eq_self_iff_true, if_true]

theorem saveStep2_norev (s : Datastore) (u : Option String) (t b : String) (now : Nat)
    {pg : WikiContent} (hpg : s.pages.find? (fun p => p.title == t) = some pg)
    (hlr : latestRevision s.revisions pg.key = none) :
    ∃ s2, saveStep2 s u t b now false false false = .error s2 ∧
      s2.pages = s.pages ∧ s2.revisions = s.revisions := by
  cases hf : s.users.find? (fun w => w.wiki_user == u) with
  | some w =>
    refine ⟨s, ?_, rfl, rfl⟩
    simp only [saveStep2, resolveWikiUser, hf, hpg, hlr, Bool.false_eq_true, if_false,
      eq_self_iff_true, if_true]
  | none =>
    refine ⟨{ users := s.users ++ [{ key := s.nextId, wiki_user := u }],
              pages := s.pages, revisions := s.revisions,
              nextId := s.nextId + 1 }, ?_, rfl, rfl⟩
    simp only [saveStep2, resolveWikiUser, hf, hpg, hlr, Bool.false_eq_true, if_false,
      eq_self_iff_true, if_true]

theorem saveStep2_failRev (s : Datastore) (u : Option String) (t b : String) (now : Nat)
    (habs : s.pages.find? (fun p => p.title == t) = none) :
    ∃ K s2, saveStep2 s u t b now false false true = .error s2 ∧
      s.nextId ≤ K ∧
      s2.pages = s.pages ++ [{ key := K, title := t }] ∧
      s2.revisions = s.revisions := by
  cases hf : s.users.find? (fun w => w.wiki_user == u) with
  | some w =>
    refine ⟨s.nextId,
      { users := s.users, pages := s.pages ++ [{ key := s.nextId, title := t }],
        revisions := s.revisions,
        nextId := s.nextId + 1 }, ?_, le_refl _, rfl, rfl⟩
    simp only [saveStep2, resolveWikiUser, hf, habs, Bool.false_eq_true, if_false,
      eq_self_iff_true, if_true]
  | none =>
    refine ⟨s.nextId + 1,
      { users := s.users ++ [{ key := s.nextId, wiki_user := u }],
        pages := s.pages ++ [{ key := s.nextId + 1, title := t }],
        revisions := s.revisions,
        nextId := s.nextId + 2 }, ?_, by simp, rfl, rfl⟩
    simp only [saveStep2, resolveWikiUser, hf, habs, Bool.false_eq_true, if_false,
      eq_self_iff_true, if_true]

theorem saveStep2_store_users (s : Datastore) (cu : Option String) (t b : String)
    (now : Nat) (fE fR : Bool) {a : Nat} {s1 : Datastore}
    (hres : resolveWikiUser s cu false = some (a, s1)) :
    (saveStep2 s cu t b now false fE fR).store.users = s1.users := by
  simp only [saveStep2, hres]
  split
  · split
    · rfl
    · split <;> rfl
  · split
    · rfl
    · split <;> rfl

/-! ## Claim theorems about the datastore operations -/

/-- Claim C1 (code bug): the handler's own comment says "only accept saves
from a signed in user", and the spec requires an unauthenticated Save to
redirect to login and perform no store mutation.  The code issues the login
redirect but lacks a `return`, so execution falls through: evaluating
`SaveHandler.post` at the failing input — an unauthenticated POST to
`/save/StartPage` with body `hello` on an empty datastore — creates a
`WikiUser` whose identity is `None`, a `WikiContent`, and a `WikiRevision`,
while also issuing the redirect. -/
theorem C1_unauthenticated_save_mutates :
    saveStep2 emptyStore none
        "StartPage" "hello" 0 false false false =
      .ok true
        { users := [{ key := 0, wiki_user := none }],
          pages := [{ key := 1, title := "StartPage" }],
          revisions := [{ version_number := 1, revision_body := "hello",
                          author := 0, wiki_page := 1, created := 0 }],
          nextId := 2 } := rfl

/-- Claim C2, counterexample: a store holding a Page titled `Orphan` with
zero revisions.  The claim says viewing it returns the all-blank empty-state
result; the code instead dereferences the `None` result of the current-
revision query (`current_version.revision_body`), i.e. raises — modelled as
`none`, which is not an empty-state result. -/
theorem C2_counterexample :
    viewStep2 orphanStore "Orphan" = none ∧
    viewStep2 orphanStore "Orphan" ≠
      some { page_title := "Orphan", body := "", author := "", author_email := "",
             version := "", version_date := "" } :=
  ⟨rfl, by decide⟩

/-- Claim C2 (amended): viewing a title with no corresponding Page returns
the empty-state result with every display field blank and raises no error;
but for a Page record that exists with zero revisions the versioned view
dereferences the missing current revision and raises (modelled `none`)
instead of returning the empty state. -/
theorem C2_view_empty_state (s : Datastore) (t : String) :
    ((∀ p ∈ s.pages, p.title ≠ t) →
      viewStep2 s t = some { page_title := t, body := "", author := "",
                             author_email := "", version := "", version_date := "" }) ∧
    (∀ pg, s.pages.find? (fun p => p.title == t) = some pg →
      latestRevision s.revisions pg.key = none → viewStep2 s t = none) := by
  constructor
  · intro habs
    have hnone : s.pages.find? (fun p => p.title == t) = none :=
      find?_eq_none_of_all (fun p hp => by simp [habs p hp])
    simp [viewStep2, hnone]
  · intro pg hpg hlr
    simp [viewStep2, hpg, hlr]

theorem C2_view_empty_state_witness :
    viewStep2 emptyStore "AnyPage" =
      some { page_title := "AnyPage", body := "", author := "", author_email := "",
             version := "", version_date := "" } ∧
    viewStep2 orphanStore "Orphan" = none :=
  ⟨(C2_view_empty_state emptyStore "AnyPage").1 (by simp [emptyStore]),
   (C2_view_empty_state orphanStore "Orphan").2 { key := 0, title := "Orphan" }
      rfl rfl⟩

/-- Claim C4, counterexample: an authenticated Save of a previously absent
title during which the revision `put()` fails.  The claim says the failed
operation leaves no orphan Page with zero revisions; the code has already
`put` the new `WikiContent` before the revision write, so the error outcome
carries a store holding the orphan page and no revision. -/
theorem C4_counterexample :
    saveStep2 emptyStore (some "alice") "SomePage" "body" 0 false false true =
      .error { users := [{ key := 0, wiki_user := some "alice" }],
               pages := [{ key := 1, title := "SomePage" }],
               revisions := [], nextId := 2 } ∧
    (saveStep2 emptyStore (some "alice")
        "SomePage" "body" 0 false false true).store.pages ≠ [] :=
  ⟨rfl, by decide⟩

/-- Claim C4 (amended): when the revision write of a Save on a previously
absent title fails, no partial Revision is visible and the revision count is
unchanged, but the Page record written just before is left behind as an
orphan with zero revisions; every later Save on that title then dereferences
the missing latest revision and raises (leaving the revisions unchanged
again) instead of writing any version number at all. -/
theorem C4_failed_save_leaves_orphan (s : Datastore) (u t b : String) (now : Nat)
    (hwf : ∀ r ∈ s.revisions, r.wiki_page < s.nextId)
    (habs : s.pages.find? (fun p => p.title == t) = none) :
    ∃ K s2, saveStep2 s (some u) t b now false false true = .error s2 ∧
      s.nextId ≤ K ∧
      s2.pages = s.pages ++ [{ key := K, title := t }] ∧
      s2.revisions = s.revisions ∧
      (∀ u' b' now', ∃ s3,
        saveStep2 s2 (some u') t b' now' false false false = .error s3 ∧
        s3.revisions = s.revisions) := by
  obtain ⟨K, s2, herr, hK, hpg, hrev⟩ := saveStep2_failRev s (some u) t b now habs
  refine ⟨K, s2, herr, hK, hpg, hrev, ?_⟩
  intro u' b' now'
  have hfind : s2.pages.find? (fun p => p.title == t) = some { key := K, title := t } := by
    rw [hpg, List.find?_append, habs, Option.none_or]
    simp
  have hlr : latestRevision s2.revisions K = none := by
    unfold latestRevision
    rw [hrev]
    have h0 : s.revisions.filter (fun r => r.wiki_page == K) = [] :=
      List.filter_eq_nil_iff.mpr (fun r hr => by
        have := hwf r hr
        simp only [beq_iff_eq]
        omega)
    rw [h0]
    rfl
  obtain ⟨s3, herr3, _, hrev3⟩ := saveStep2_norev s2 (some u') t b' now' hfind hlr
  exact ⟨s3, herr3, by rw [hrev3, hrev]⟩

theorem C4_failed_save_leaves_orphan_witness :
    (∀ r ∈ emptyStore.revisions, r.wiki_page < emptyStore.nextId) ∧
    ∃ K s2, saveStep2 emptyStore (some "alice") "SomePage" "body" 7 false false true =
        .error s2 ∧
      emptyStore.nextId ≤ K ∧
      s2.pages = emptyStore.pages ++ [{ key := K, title := "SomePage" }] ∧
      s2.revisions = emptyStore.revisions ∧
      (∀ u' b' now', ∃ s3,
        saveStep2 s2 (some u') "SomePage" b' now' false false false = .error s3 ∧
        s3.revisions = emptyStore.revisions) :=
  ⟨by simp [emptyStore], C4_failed_save_leaves_orphan emptyStore "alice" "SomePage"
    "body" 7 (by simp [emptyStore]) rfl⟩

/-- Invariant carried across a sequence of authenticated saves of the same
title: the page created by the first save stays the unique page with that
title, and the revisions accumulated for it carry version numbers `1..k`. -/
theorem saveSeq_inv (s : Datastore) (t : String)
    (hwf : ∀ r ∈ s.revisions, r.wiki_page < s.nextId)
    (habs : s.pages.find? (fun p => p.title == t) = none) :
    ∀ (edits : List EditPost) (s' : Datastore) (news : List WikiRevision) (K k : Nat),
      s'.pages = s.pages ++ [{ key := K, title := t }] →
      s'.revisions = s.revisions ++ news →
      news.map (fun r => r.version_number) = List.range' 1 k →
      (∀ r ∈ news, r.wiki_page = K) →
      1 ≤ k → s.nextId ≤ K →
      ∃ s'' news', saveSeq t s' edits = .ok false s'' ∧
        s''.pages = s.pages ++ [{ key := K, title := t }] ∧
        s''.revisions = s.revisions ++ news' ∧
        news'.map (fun r => r.version_number) = List.range' 1 (k + edits.length) ∧
        (∀ r ∈ news', r.wiki_page = K) := by
  intro edits
  induction edits with
  | nil =>
    intro s' news K k h1 h2 h3 h4 h5 h6
    exact ⟨s', news, rfl, h1, h2, by simpa using h3, h4⟩
  | cons e es ih =>
    intro s' news K k h1 h2 h3 h4 h5 h6
    have hfind : s'.pages.find? (fun p => p.title == t) =
        some { key := K, title := t } := by
      rw [h1, List.find?_append, habs, Option.none_or]
      simp
    have hfil : s'.revisions.filter (fun r => r.wiki_page == K) = news := by
      rw [h2]
      exact filter_append_news hwf h6 h4
    obtain ⟨lr, hlr, hlrv⟩ := latestRevision_of_range hfil h3 h5
    obtain ⟨a, s2, hsave, hpg2, hrev2, hnext2⟩ :=
      saveStep2_old s' (some e.user) t e.body e.now hfind hlr
    have hstep : saveSeq t s' (e :: es) = saveSeq t s2 es := by
      simp only [saveSeq, hsave]
    set nr : WikiRevision :=
      { version_number := lr.version_number + 1, revision_body := e.body,
        author := a, wiki_page := K, created := e.now } with hnr
    have hrev2' : s2.revisions = s'.revisions ++ [nr] := hrev2
    have happ : s2.revisions = s.revisions ++ (news ++ [nr]) := by
      rw [hrev2', h2, List.append_assoc]
    have hpages2 : s2.pages = s.pages ++ [{ key := K, title := t }] := by
      rw [hpg2, h1]
    have h3' : (news ++ [nr]).map (fun r => r.version_number) =
        List.range' 1 (k + 1) := by
      rw [List.map_append, h3, List.range'_concat]
      simp [hnr, hlrv, Nat.add_comm]
    have h4' : ∀ r ∈ news ++ [nr], r.wiki_page = K := by
      intro r hr
      rcases List.mem_append.mp hr with h | h
      · exact h4 r h
      · simp only [List.mem_singleton] at h
        rw [h, hnr]
    obtain ⟨s'', news', hseq, hp, hr', hm, hwp⟩ :=
      ih s2 (news ++ [nr]) K (k + 1) hpages2 happ h3' h4' (by omega) h6
    refine ⟨s'', news', ?_, hp, hr', ?_, hwp⟩
    · rw [hstep, hseq]
    · have heq : k + 1 + es.length = k + (e :: es).length := by
        simp only [List.length_cons]
        omega
      rw [hm, heq]

/-- Claim C3 (confirmed): starting from any well-formed store in which the
title is absent, after `N ≥ 1` sequential successful authenticated saves of
that title the revisions stored for the page carry version numbers exactly
`1..N` with no gaps or duplicates, and the descending-order current-revision
query returns the revision with version number `N`. -/
theorem C3_versioned_versions (s : Datastore) (t : String) (edits : List EditPost)
    (hwf : ∀ r ∈ s.revisions, r.wiki_page < s.nextId)
    (habs : ∀ p ∈ s.pages, p.title ≠ t)
    (hne : edits ≠ []) :
    ∃ s' pg, saveSeq t s edits = .ok false s' ∧
      s'.pages.find? (fun p => p.title == t) = some pg ∧
      (s'.revisions.filter (fun r => r.wiki_page == pg.key)).map
        (fun r => r.version_number) = List.range' 1 edits.length ∧
      ∃ r, latestRevision s'.revisions pg.key = some r ∧
        r.version_number = edits.length := by
  have habs' : s.pages.find? (fun p => p.title == t) = none :=
    find?_eq_none_of_all (fun p hp => by simp [habs p hp])
  cases edits with
  | nil => exact absurd rfl hne
  | cons e es =>
    obtain ⟨a, K, s1, hsave, hK, hpages1, hrev1⟩ :=
      saveStep2_new s (some e.user) t e.body e.now habs'
    have hseq0 : saveSeq t s (e :: es) = saveSeq t s1 es := by
      simp only [saveSeq, hsave]
    obtain ⟨s'', news', hseq, hp, hr', hm, hwp⟩ :=
      saveSeq_inv s t hwf habs' es s1
        [({ version_number := 1, revision_body := e.body, author := a, wiki_page := K,
            created := e.now } : WikiRevision)] K 1 hpages1 hrev1
        (by simp [List.range'_one])
        (by intro r hr; simp only [List.mem_singleton] at hr; rw [hr]) (le_refl 1) hK
    have hfil : s''.revisions.filter (fun r => r.wiki_page == K) = news' := by
      rw [hr']
      exact filter_append_news hwf hK hwp
    refine ⟨s'', { key := K, title := t }, ?_, ?_, ?_, ?_⟩
    · rw [hseq0, hseq]
    · rw [hp, List.find?_append, habs', Option.none_or]
      simp
    · show (s''.revisions.filter (fun r => r.wiki_page == K)).map
        (fun r => r.version_number) = List.range' 1 (e :: es).length
      have heq : 1 + es.length = (e :: es).length := by
        simp only [List.length_cons]
        omega
      rw [hfil, hm, heq]
    · show ∃ r, latestRevision s''.revisions K = some r ∧
        r.version_number = (e :: es).length
      obtain ⟨r, hrr, hrv⟩ := latestRevision_of_range hfil hm (by omega)
      refine ⟨r, hrr, ?_⟩
      rw [hrv]
      simp only [List.length_cons]
      omega

theorem C3_versioned_versions_witness :
    (([⟨"ann", "first", 3⟩, ⟨"bob", "second", 4⟩] : List EditPost) ≠ []) ∧
    ∃ s' pg, saveSeq "StartPage" emptyStore
        [⟨"ann", "first", 3⟩, ⟨"bob", "second", 4⟩] = .ok false s' ∧
      s'.pages.find? (fun p => p.title == "StartPage") = some pg ∧
      (s'.revisions.filter (fun r => r.wiki_page == pg.key)).map
        (fun r => r.version_number) = List.range' 1 2 ∧
      ∃ r, latestRevision s'.revisions pg.key = some r ∧ r.version_number = 2 :=
  ⟨by decide, C3_versioned_versions emptyStore "StartPage"
    [⟨"ann", "first", 3⟩, ⟨"bob", "second", 4⟩] (by simp [emptyStore])
    (by simp [emptyStore]) (by decide)⟩

/-- Claim C7 (confirmed): saving the same (previously absent) title twice
with different bodies and different authenticated identities: in the
single-revision variant the second save overwrites the first in place — the
store afterwards holds the original pages plus exactly one new page record,
under the key assigned at creation, carrying only the second body and second
author; in the versioned variant both revisions remain stored, with version
numbers 1 and 2 and their respective bodies. -/
theorem C7_two_saves (s1 : Datastore1) (s : Datastore) (t u1 u2 b1 b2 : String)
    (n1 n2 : Nat)
    (h1abs : ∀ p ∈ s1.pages, p.title ≠ t)
    (h1keys : ∀ p ∈ s1.pages, p.key < s1.nextId)
    (habs : ∀ p ∈ s.pages, p.title ≠ t)
    (hwf : ∀ r ∈ s.revisions, r.wiki_page < s.nextId) :
    ((saveStep1 (saveStep1 s1 (some u1) t b1).2 (some u2) t b2).2.pages
        = s1.pages ++ [{ key := s1.nextId, title := t, body := b2, author := some u2 }]) ∧
    (∃ sB pg,
      saveSeq t s [⟨u1, b1, n1⟩, ⟨u2, b2, n2⟩] = .ok false sB ∧
      sB.pages.find? (fun p => p.title == t) = some pg ∧
      (sB.revisions.filter (fun r => r.wiki_page == pg.key)).map
        (fun r => (r.version_number, r.revision_body)) = [(1, b1), (2, b2)]) := by
  constructor
  · have hf1 : s1.pages.find? (fun p => p.title == t) = none :=
      find?_eq_none_of_all (fun p hp => by simp [h1abs p hp])
    have hsave1 : (saveStep1 s1 (some u1) t b1).2 =
        { pages := s1.pages ++
            [{ key := s1.nextId, title := t, body := b1, author := some u1 }],
          nextId := s1.nextId + 1 } := by
      simp only [saveStep1, hf1]
    rw [hsave1]
    have hf2 : (s1.pages ++
        [({ key := s1.nextId, title := t, body := b1, author := some u1 } : WikiPage)]
        ).find? (fun p => p.title == t) =
        some { key := s1.nextId, title := t, body := b1, author := some u1 } := by
      rw [List.find?_append, hf1, Option.none_or]
      simp
    simp only [saveStep1, hf2]
    rw [List.map_append]
    congr 1
    · apply map_eq_self_of
      intro p hp
      have hk : p.key ≠ s1.nextId := by
        have := h1keys p hp
        omega
      simp [hk]
    · simp
  · have habs' : s.pages.find? (fun p => p.title == t) = none :=
      find?_eq_none_of_all (fun p hp => by simp [habs p hp])
    obtain ⟨a1, K, sA, hsaveA, hK, hpagesA, hrevA⟩ :=
      saveStep2_new s (some u1) t b1 n1 habs'
    have hfindA : sA.pages.find? (fun p => p.title == t) =
        some { key := K, title := t } := by
      rw [hpagesA, List.find?_append, habs', Option.none_or]
      simp
    have hfilA : sA.revisions.filter (fun r => r.wiki_page == K) =
        [({ version_number := 1, revision_body := b1, author := a1, wiki_page := K,
            created := n1 } : WikiRevision)] := by
      rw [hrevA]
      refine filter_append_news hwf hK ?_
      intro r hr
      simp only [List.mem_singleton] at hr
      rw [hr]
    have hlatestA : latestRevision sA.revisions K =
        some { version_number := 1, revision_body := b1, author := a1, wiki_page := K,
               created := n1 } := by
      unfold latestRevision
      rw [hfilA]
      rfl
    obtain ⟨a2, sB, hsaveB, hpgB, hrevB, _⟩ :=
      saveStep2_old sA (some u2) t b2 n2 hfindA hlatestA
    have hrevB' : sB.revisions = s.revisions ++
        [({ version_number := 1, revision_body := b1, author := a1, wiki_page := K,
            created := n1 } : WikiRevision),
         ({ version_number := 2, revision_body := b2, author := a2, wiki_page := K,
            created := n2 } : WikiRevision)] := by
      rw [hrevB, hrevA, List.append_assoc]
      rfl
    refine ⟨sB, { key := K, title := t }, ?_, ?_, ?_⟩
    · simp only [saveSeq, hsaveA, hsaveB]
    · rw [hpgB, hpagesA, List.find?_append, habs', Option.none_or]
      simp
    · show (sB.revisions.filter (fun r => r.wiki_page == K)).map
        (fun r => (r.version_number, r.revision_body)) = [(1, b1), (2, b2)]
      rw [hrevB', filter_append_news hwf hK ?_]
      · rfl
      · intro r hr
        simp only [List.mem_cons, List.mem_singleton, List.not_mem_nil, or_false] at hr
        rcases hr with h | h <;> rw [h]

theorem C7_two_saves_witness :
    ∃ sB pg,
      saveSeq "TwoPage" emptyStore [⟨"ann", "one", 1⟩, ⟨"bob", "two", 2⟩] =
        .ok false sB ∧
      sB.pages.find? (fun p => p.title == "TwoPage") = some pg ∧
      (sB.revisions.filter (fun r => r.wiki_page == pg.key)).map
        (fun r => (r.version_number, r.revision_body)) = [(1, "one"), (2, "two")] :=
  (C7_two_saves { pages := [], nextId := 0 } emptyStore "TwoPage" "ann" "bob"
    "one" "two" 1 2 (by simp) (by simp) (by simp [emptyStore])
    (by simp [emptyStore])).2

/-- Claim C8 (confirmed): every authenticated versioned Save resolves the
caller's profile by identity before any page or revision write: a profile
is created exactly when none exists for that identity (the upsert happens
even when the page put or the revision put subsequently fails, since it
precedes them), and a store holding at most one profile per identity still
holds at most one afterwards. -/
theorem C8_profile_upsert (s : Datastore) (u t b : String) (now : Nat)
    (fE fR : Bool)
    (hone : s.users.countP (fun w => w.wiki_user == some u) ≤ 1) :
    ((saveStep2 s (some u) t b now false fE fR).store.users =
      (if (s.users.find? (fun w => w.wiki_user == some u)).isSome then s.users
       else s.users ++ [{ key := s.nextId, wiki_user := some u }])) ∧
    (saveStep2 s (some u) t b now false fE fR).store.users.countP
      (fun w => w.wiki_user == some u) ≤ 1 := by
  obtain ⟨a, s1, hres⟩ := resolveWikiUser_some s (some u)
  have husers : (saveStep2 s (some u) t b now false fE fR).store.users = s1.users :=
    saveStep2_store_users s (some u) t b now fE fR hres
  have hs1 := resolveWikiUser_users hres
  refine ⟨by rw [husers, hs1], ?_⟩
  rw [husers, hs1]
  cases hf : s.users.find? (fun w => w.wiki_user == some u) with
  | some w => simpa using hone
  | none =>
    simp only [Option.isSome_none, Bool.false_eq_true, if_false]
    rw [List.countP_append]
    have h0 : s.users.countP (fun w => w.wiki_user == some u) = 0 :=
      List.countP_eq_zero.mpr (List.find?_eq_none.mp hf)
    rw [h0]
    simp [List.countP_cons]

theorem C8_profile_upsert_witness :
    (emptyStore.users.countP (fun w => w.wiki_user == some "ann") ≤ 1) ∧
    ((saveStep2 emptyStore (some "ann") "T" "b" 0 false false true).store.users =
      (if (emptyStore.users.find? (fun w => w.wiki_user == some "ann")).isSome
       then emptyStore.users
       else emptyStore.users ++ [{ key := emptyStore.nextId, wiki_user := some "ann" }])) ∧
    (saveStep2 emptyStore (some "ann") "T" "b" 0 false false true).store.users.countP
      (fun w => w.wiki_user == some "ann") ≤ 1 :=
  ⟨by decide, C8_profile_upsert emptyStore "ann" "T" "b" 0 false true (by decide)⟩

/-- Claim C10 (confirmed): a versioned Save on a title whose Page record
already exists never rewrites the pages (the pages list of the resulting
store equals the original in every outcome — authenticated or not, and with
any injected write failure) and never updates or deletes an existing
Revision: on success exactly one new revision is appended at the end, on
failure the revisions are unchanged. -/
theorem C10_save_frame (s : Datastore) (cu : Option String) (t b : String) (now : Nat)
    (fU fE fR : Bool)
    (hex : (s.pages.find? (fun p => p.title == t)).isSome = true) :
    (saveStep2 s cu t b now fU fE fR).store.pages = s.pages ∧
    ((∃ lrFlag s2, saveStep2 s cu t b now fU fE fR = .ok lrFlag s2 ∧
        ∃ r, s2.revisions = s.revisions ++ [r]) ∨
      (∃ s2, saveStep2 s cu t b now fU fE fR = .error s2 ∧
        s2.revisions = s.revisions)) := by
  cases hres : resolveWikiUser s cu fU with
  | none =>
    constructor
    · simp only [saveStep2, hres, SaveOutcome.store]
    · right
      refine ⟨s, ?_, rfl⟩
      simp only [saveStep2, hres]
  | some p =>
    obtain ⟨a, s1⟩ := p
    obtain ⟨hp1, hr1, _⟩ := resolveWikiUser_frame hres
    obtain ⟨pg, hpg⟩ := Option.isSome_iff_exists.mp hex
    have hpg1 : s1.pages.find? (fun p => p.title == t) = some pg := by
      rw [hp1, hpg]
    cases hl : latestRevision s1.revisions pg.key with
    | none =>
      constructor
      · simp only [saveStep2, hres, hpg1, hl, SaveOutcome.store]
        exact hp1
      · right
        refine ⟨s1, ?_, hr1⟩
        simp only [saveStep2, hres, hpg1, hl]
    | some lr =>
      cases fR with
      | true =>
        constructor
        · simp only [saveStep2, hres, hpg1, hl, eq_self_iff_true, if_true,
            SaveOutcome.store]
          exact hp1
        · right
          refine ⟨s1, ?_, hr1⟩
          simp only [saveStep2, hres, hpg1, hl, eq_self_iff_true, if_true]
      | false =>
        constructor
        · simp only [saveStep2, hres, hpg1, hl, Bool.false_eq_true, if_false,
            SaveOutcome.store]
          exact hp1
        · left
          refine ⟨cu.isNone,
            { users := s1.users, pages := s1.pages,
              revisions := s1.revisions ++
                [{ version_number := lr.version_number + 1, revision_body := b,
                   author := a, wiki_page := pg.key, created := now }],
              nextId := s1.nextId }, ?_,
            ⟨{ version_number := lr.version_number + 1, revision_body := b,
               author := a, wiki_page := pg.key, created := now }, by rw [hr1]⟩⟩
          simp only [saveStep2, hres, hpg1, hl, Bool.false_eq_true, if_false]

theorem C10_save_frame_witness :
    ((orphanStore.pages.find? (fun p => p.title == "Orphan")).isSome = true) ∧
    ((saveStep2 orphanStore (some "u") "Orphan" "b" 0 false false false).store.pages =
      orphanStore.pages ∧
    ((∃ lrFlag s2, saveStep2 orphanStore (some "u") "Orphan" "b" 0 false false false =
        .ok lrFlag s2 ∧ ∃ r, s2.revisions = orphanStore.revisions ++ [r]) ∨
      (∃ s2, saveStep2 orphanStore (some "u") "Orphan" "b" 0 false false false =
        .error s2 ∧ s2.revisions = orphanStore.revisions))) :=
  ⟨by decide, C10_save_frame orphanStore (some "u") "Orphan" "b" 0 false false false
    (by decide)⟩

end Wiki
